import Mathlib

/-!
# Codeforces 800-rated solutions: a shallow embedding and its properties

The repository holds four standalone C++ programs under `800_rated/`.  Each
one reads a token (or a few tokens) from standard input and prints text to
standard output.  Every program is embedded here as a pure function from the
tokens read to the text printed.

Modelling conventions:

* `std::string` is `List Char`; a string literal `"abc"` is written
  `"abc".toList`.  A `char` is a `Char`; the programs look only at its code
  (`Char.toNat`), and all well-formed inputs are ASCII.
* C++ `int` variables are `Int`.  Every counter in these programs is bounded by
  the length of a string that was read, so no counter leaves the 32-bit range
  for any word shorter than `2^31` characters.
* `islower`, `toupper`, `tolower` (from `<cctype>`, default "C" locale) are
  `Char.isLower`, `Char.toUpper`, `Char.toLower`, which are ASCII-only.
* `std::to_string(int)` is `toString` on `Int` (decimal, leading `-` for
  negatives).
* `std::list<int>::sort()` is a stable ascending library sort; it is
  embedded as `List.insertionSort (· ≤ ·)`.
-/

namespace Codeforces

/-- The text `std::to_string` yields for an `int`. -/
def to_string (n : Int) : List Char := (toString n).toList

/-! ## 339A Helpful Maths (`339A_Helpful_Maths.cpp`) -/

namespace HelpfulMaths

/-- Local state of the scanning loop (lines 12-18): the operator counter and the
list of collected numbers. -/
structure ScanState where
  positive_counter : Int
  l : List Int

/-- One iteration of the scanning loop: a `'+'` bumps `positive_counter`, any other
character `c` appends `c - '0'` to `l`. -/
def scanStep (st : ScanState) (c : Char) : ScanState :=
  if c = '+' then ⟨st.positive_counter + 1, st.l⟩
  else
    let numbers : Int := (c.toNat : Int) - ('0'.toNat : Int)
    ⟨st.positive_counter, st.l ++ [numbers]⟩

/-- The scanning loop `for (int i = 0; i < s.length(); i++)`, started with
`positive_counter = 0` and an empty list. -/
def scan (s : List Char) : ScanState := s.foldl scanStep ⟨0, []⟩

/-- The output loop `for (auto it : l)` (lines 20-28): append the decimal text of
each number, followed by a `'+'` while `positive_counter` is still positive. -/
def emit : List Int → Int → List Char → List Char
  | [], _, answer => answer
  | it :: rest, positive_counter, answer =>
    let answer := answer ++ to_string it
    if positive_counter > 0 then emit rest (positive_counter - 1) (answer ++ ['+'])
    else emit rest positive_counter answer

/-- The value of the variable `answer` when it is printed (line 29). -/
def answer (s : List Char) : List Char :=
  let st := scan s
  emit (st.l.insertionSort (· ≤ ·)) st.positive_counter []

/-- Standard output of `main` for the input token `s`: `cout << answer << endl`. -/
def main (s : List Char) : List Char := answer s ++ ['\n']

/-- Well-formed input: a digit, followed by zero or more groups of a `'+'` and a
digit. -/
def wellFormed : List Char → Bool
  | [] => false
  | [c] => c.isDigit
  | c :: p :: rest => c.isDigit && p == '+' && wellFormed rest

/-- The digit characters occurring in a string, in order of occurrence. -/
def digitsOf (s : List Char) : List Char := s.filter Char.isDigit

/-- The value `c - '0'` that the scanning loop stores for a non-operator
character `c` (line 15). -/
def numberOf (c : Char) : Int := (c.toNat : Int) - ('0'.toNat : Int)

/-- The number of `'+'` characters occurring in a string. -/
def plusCount (s : List Char) : Nat := s.count '+'

end HelpfulMaths

/-! ## 59A Word (`59A_Word.cpp`) -/

namespace Word

/-- The two counters of the counting loop (lines 10-18). -/
structure CaseCount where
  lower_words_count : Int
  upper_words_count : Int

/-- One iteration of the counting loop: `islower` bumps the first counter, anything
else bumps the second. -/
def countStep (st : CaseCount) (c : Char) : CaseCount :=
  if c.isLower then ⟨st.lower_words_count + 1, st.upper_words_count⟩
  else ⟨st.lower_words_count, st.upper_words_count + 1⟩

/-- The counting loop `for (int i = 0; i < s.size(); i++)`, started from `0, 0`. -/
def countCase (s : List Char) : CaseCount := s.foldl countStep ⟨0, 0⟩

/-- The character printed for `it` in the output loop (lines 21-28). -/
def recase (st : CaseCount) (it : Char) : Char :=
  if st.lower_words_count < st.upper_words_count then it.toUpper else it.toLower

/-- Standard output of `main` for the input token `s`: one character per input
character, no line terminator. -/
def main (s : List Char) : List Char :=
  let st := countCase s
  s.foldl (fun out it => out ++ [recase st it]) []

end Word

/-! ## 71A Way Too Long Words (`71A_Way_Too_Long_Words.cpp`) -/

namespace WayTooLongWords

/-- The counting loop `for (int i = 1; i < it.length() - 1; i++) count++`, started
with `count = 0`.  It is reached only when `it.length() > 10`, so the unsigned
subtraction does not wrap; `i` ranges over `1, ..., it.length() - 2`. -/
def countLoop (it : List Char) : Int :=
  (List.range' 1 (it.length - 1 - 1)).foldl (fun count _ => count + 1) 0

/-- The text written for one word by the body of the loop in `problem`, without the
terminating `endl`.  `it.front()` and `it.back()` are evaluated only on words
longer than 10 characters; the default character is never used there. -/
def emitted (it : List Char) : List Char :=
  if it.length ≤ 10 then it
  else
    let count := countLoop it
    [it.headD (Char.ofNat 0)] ++ to_string count ++ [it.getLastD (Char.ofNat 0)]

/-- Standard output of `problem`: every line is followed by `endl`. -/
def problem (k : List (List Char)) : List Char :=
  k.foldl (fun out it => out ++ emitted it ++ ['\n']) []

/-- The reading loop of `main` (lines 30-33), run for the given number of
iterations over the tokens left on standard input: `cin >> k` takes the next
token; when none is left the extraction fails and `k` keeps its value.  Either
way `k` is appended to `input`. -/
def readWords : Nat → List (List Char) → List Char → List (List Char) → List (List Char)
  | 0, _, _, input => input
  | i + 1, [], k, input => readWords i [] k (input ++ [k])
  | i + 1, t :: ts, _, input => readWords i ts t (input ++ [t])

/-- Standard output of `main` when standard input holds the integer `n` followed by
the tokens `tokens`. -/
def main (n : Int) (tokens : List (List Char)) : List Char :=
  problem (readWords n.toNat tokens [] [])

/-- The abbreviation of a word: first character, decimal text of the length minus
2, last character. -/
def abbreviation (w : List Char) : List Char :=
  w.head?.toList ++ (Nat.repr (w.length - 2)).toList ++ w.getLast?.toList

/-- Cuts a text into its lines: every `'\n'` ends a line, and characters after the
last `'\n'` form a final unterminated line.  The second argument is the line
collected so far. -/
def splitLinesFrom : List Char → List Char → List (List Char)
  | [], cur => if cur = [] then [] else [cur]
  | c :: cs, cur => if c = '\n' then cur :: splitLinesFrom cs [] else splitLinesFrom cs (cur ++ [c])

/-- The lines of a text. -/
def splitLines (out : List Char) : List (List Char) := splitLinesFrom out []

end WayTooLongWords

/-! ## 734A Anton and Danik (`734A_Anton_and_Danik.cpp`) -/

namespace AntonAndDanik

/-- The two counters of the counting loop (lines 10-17). -/
structure Tally where
  anton_win_count : Int
  danik_win_count : Int

/-- Iteration `i` of the counting loop: `game[i] == 'A'` bumps the first counter,
anything else bumps the second.  `game[game.size()]` is the null character; an
index beyond that is outside what C++ defines and is read as the null character
here too. -/
def tallyStep (game : List Char) (st : Tally) (i : Nat) : Tally :=
  if game.getD i (Char.ofNat 0) = 'A' then ⟨st.anton_win_count + 1, st.danik_win_count⟩
  else ⟨st.anton_win_count, st.danik_win_count + 1⟩

/-- The counters after the first `i` iterations of `for (int i = 0; i < n; i++)`,
started from `0, 0`. -/
def tallyAfter (n : Int) (game : List Char) (i : Nat) : Tally :=
  ((List.range n.toNat).take i).foldl (tallyStep game) ⟨0, 0⟩

/-- The counters when the counting loop has finished. -/
def tally (n : Int) (game : List Char) : Tally :=
  (List.range n.toNat).foldl (tallyStep game) ⟨0, 0⟩

/-- Standard output of `main` when standard input holds the integer `n` followed by
the token `game`. -/
def main (n : Int) (game : List Char) : List Char :=
  let st := tally n game
  if st.anton_win_count > st.danik_win_count then "Anton".toList
  else if st.anton_win_count = st.danik_win_count then "Friendship".toList
  else "Danik".toList

/-- Exchanges the two result symbols `'A'` and `'D'`; other characters are kept. -/
def swapPlayers (c : Char) : Char :=
  if c = 'A' then 'D' else if c = 'D' then 'A' else c

end AntonAndDanik

/-! ## Character facts -/

theorem isDigit_bounds (c : Char) (h : c.isDigit = true) : 48 ≤ c.toNat ∧ c.toNat ≤ 57 := by
  simp only [Char.isDigit, Bool.and_eq_true, decide_eq_true_eq] at h
  have h1 : (48 : UInt32).toNat ≤ c.val.toNat := h.1
  have h2 : c.val.toNat ≤ (57 : UInt32).toNat := h.2
  exact ⟨h1, h2⟩

theorem char_eq_of_toNat (c d : Char) (h : c.toNat = d.toNat) : c = d :=
  Char.ext (UInt32.ext h)

theorem char_le_iff_toNat (c d : Char) : c ≤ d ↔ c.toNat ≤ d.toNat := by
  rw [Char.le_def]
  exact Iff.rfl

theorem isDigit_ne_plus (c : Char) (h : c.isDigit = true) : c ≠ '+' := by
  intro hc
  rw [hc] at h
  exact absurd h (by decide)

/-- The decimal text of a digit value is the digit character it came from. -/
theorem to_string_digit (c : Char) (h : c.isDigit = true) :
    to_string ((c.toNat : Int) - ('0'.toNat : Int)) = [c] := by
  obtain ⟨h1, h2⟩ := isDigit_bounds c h
  have hcases : c.toNat = 48 ∨ c.toNat = 49 ∨ c.toNat = 50 ∨ c.toNat = 51 ∨ c.toNat = 52 ∨
      c.toNat = 53 ∨ c.toNat = 54 ∨ c.toNat = 55 ∨ c.toNat = 56 ∨ c.toNat = 57 := by omega
  rcases hcases with h | h | h | h | h | h | h | h | h | h
  · rw [char_eq_of_toNat c '0' (by rw [h]; decide)]; decide
  · rw [char_eq_of_toNat c '1' (by rw [h]; decide)]; decide
  · rw [char_eq_of_toNat c '2' (by rw [h]; decide)]; decide
  · rw [char_eq_of_toNat c '3' (by rw [h]; decide)]; decide
  · rw [char_eq_of_toNat c '4' (by rw [h]; decide)]; decide
  · rw [char_eq_of_toNat c '5' (by rw [h]; decide)]; decide
  · rw [char_eq_of_toNat c '6' (by rw [h]; decide)]; decide
  · rw [char_eq_of_toNat c '7' (by rw [h]; decide)]; decide
  · rw [char_eq_of_toNat c '8' (by rw [h]; decide)]; decide
  · rw [char_eq_of_toNat c '9' (by rw [h]; decide)]; decide

namespace HelpfulMaths

/-! ## 339A Helpful Maths: the scanning loop -/

theorem foldl_scanStep (s : List Char) (st : ScanState) :
    s.foldl scanStep st =
      ⟨st.positive_counter + (s.count '+' : Nat),
        st.l ++ (s.filter (fun c => c != '+')).map numberOf⟩ := by
  induction s generalizing st with
  | nil => simp
  | cons c cs ih =>
    rw [List.foldl_cons, ih]
    by_cases hc : c = '+'
    · subst hc
      simp [scanStep]
      omega
    · have hne : ('+' == c) = false := by
        simpa using fun h => hc h.symm
      simp [scanStep, hc, numberOf, List.count_cons, hne]

theorem scan_eq (s : List Char) :
    scan s = ⟨(s.count '+' : Nat), (s.filter (fun c => c != '+')).map numberOf⟩ := by
  simp [scan, foldl_scanStep]

/-! ## 339A Helpful Maths: well-formed inputs -/

theorem wellFormed_decomp (s : List Char) (h : wellFormed s = true) :
    ∃ ds : List Char, ds ≠ [] ∧ (∀ d ∈ ds, d.isDigit = true) ∧ s = ds.intersperse '+' := by
  induction s using wellFormed.induct with
  | case1 => simp [wellFormed] at h
  | case2 c =>
    refine ⟨[c], by simp, ?_, by simp⟩
    simpa [wellFormed] using h
  | case3 c p rest ih =>
    simp only [wellFormed, Bool.and_eq_true, beq_iff_eq] at h
    obtain ⟨⟨hc, hp⟩, hrest⟩ := h
    obtain ⟨ds, hne, hds, hs⟩ := ih hrest
    refine ⟨c :: ds, by simp, ?_, ?_⟩
    · intro d hd
      rcases List.mem_cons.mp hd with rfl | hd
      · exact hc
      · exact hds d hd
    · cases ds with
      | nil => exact absurd rfl hne
      | cons y zs => rw [List.intersperse_cons₂, ← hs, hp]

theorem filter_ne_plus_intersperse (ds : List Char) (hds : ∀ d ∈ ds, d.isDigit = true) :
    (ds.intersperse '+').filter (fun c => c != '+') = ds := by
  induction ds with
  | nil => simp
  | cons x xs ih =>
    have hx : x ≠ '+' := isDigit_ne_plus x (hds x (List.mem_cons_self _ _))
    have ih := ih (fun d hd => hds d (List.mem_cons_of_mem _ hd))
    cases xs with
    | nil => simp [hx]
    | cons y zs =>
      rw [List.intersperse_cons₂]
      simp only [List.filter_cons, bne_self_eq_false, Bool.false_eq_true, if_false]
      rw [ih]
      simp [hx]

theorem digitsOf_intersperse (ds : List Char) (hds : ∀ d ∈ ds, d.isDigit = true) :
    digitsOf (ds.intersperse '+') = ds := by
  unfold digitsOf
  induction ds with
  | nil => simp
  | cons x xs ih =>
    have hx : x.isDigit = true := hds x (List.mem_cons_self _ _)
    have ih := ih (fun d hd => hds d (List.mem_cons_of_mem _ hd))
    have hplus : Char.isDigit '+' = false := by decide
    cases xs with
    | nil => simp [hx]
    | cons y zs =>
      rw [List.intersperse_cons₂]
      simp only [List.filter_cons, hx, hplus, if_true, Bool.false_eq_true, if_false]
      rw [ih]

theorem count_plus_intersperse (ds : List Char) (hds : ∀ d ∈ ds, d.isDigit = true) :
    (ds.intersperse '+').count '+' = ds.length - 1 := by
  induction ds with
  | nil => simp
  | cons x xs ih =>
    have hx : x ≠ '+' := isDigit_ne_plus x (hds x (List.mem_cons_self _ _))
    have hx2 : (x == '+') = false := by simpa using hx
    have ih := ih (fun d hd => hds d (List.mem_cons_of_mem _ hd))
    cases xs with
    | nil => simp [List.count_cons, hx2]
    | cons y zs =>
      rw [List.intersperse_cons₂]
      simp only [List.count_cons, hx2, beq_self_eq_true, if_true, Bool.false_eq_true, if_false]
      rw [ih]
      simp

/-! ## 339A Helpful Maths: the output loop -/

theorem emit_digits (cs : List Char) (hcs : ∀ c ∈ cs, c.isDigit = true) (hne : cs ≠ [])
    (acc : List Char) :
    emit (cs.map numberOf) ((cs.length : Int) - 1) acc = acc ++ cs.intersperse '+' := by
  induction cs generalizing acc with
  | nil => exact absurd rfl hne
  | cons x xs ih =>
    have hx : to_string (numberOf x) = [x] := to_string_digit x (hcs x (List.mem_cons_self _ _))
    have hxs : ∀ c ∈ xs, c.isDigit = true := fun d hd => hcs d (List.mem_cons_of_mem _ hd)
    cases xs with
    | nil => simp [emit, hx]
    | cons y zs =>
      have ih := ih hxs (by simp) (acc ++ [x] ++ ['+'])
      rw [List.intersperse_cons₂, List.map_cons, emit, hx]
      have hpos : ((x :: y :: zs).length : Int) - 1 > 0 := by
        simp only [List.length_cons]; push_cast; omega
      have hpred : ((x :: y :: zs).length : Int) - 1 - 1 = ((y :: zs).length : Int) - 1 := by
        simp only [List.length_cons]; push_cast; omega
      simp only [hpos, if_true, hpred]
      rw [ih]
      simp

theorem numberOf_le_iff (a b : Char) : a ≤ b ↔ numberOf a ≤ numberOf b := by
  rw [char_le_iff_toNat]
  unfold numberOf
  omega

theorem sort_map_numberOf (ds : List Char) :
    (ds.map numberOf).insertionSort (· ≤ ·) = (ds.insertionSort (· ≤ ·)).map numberOf :=
  (List.map_insertionSort (· ≤ ·) (· ≤ ·) numberOf ds
    (fun a _ b _ => numberOf_le_iff a b)).symm

/-- On a `'+'`-separated list of digits the program prints the digits sorted and
`'+'`-separated. -/
theorem answer_intersperse (ds : List Char) (hds : ∀ d ∈ ds, d.isDigit = true) (hne : ds ≠ []) :
    answer (ds.intersperse '+') = (ds.insertionSort (· ≤ ·)).intersperse '+' := by
  have hsorted_digits : ∀ c ∈ ds.insertionSort (· ≤ ·), c.isDigit = true :=
    fun c hc => hds c ((List.mem_insertionSort (· ≤ ·)).mp hc)
  have hsorted_ne : ds.insertionSort (· ≤ ·) ≠ [] := by
    intro h
    have := List.length_insertionSort (· ≤ ·) ds
    rw [h] at this
    exact hne (List.length_eq_zero.mp this.symm)
  have hlen : (((ds.intersperse '+').count '+' : Nat) : Int)
      = ((ds.insertionSort (· ≤ ·)).length : Int) - 1 := by
    rw [count_plus_intersperse ds hds, List.length_insertionSort]
    have : 0 < ds.length := List.length_pos.mpr hne
    omega
  unfold answer
  rw [scan_eq]
  simp only
  rw [filter_ne_plus_intersperse ds hds, sort_map_numberOf, hlen,
    emit_digits _ hsorted_digits hsorted_ne]
  simp

theorem head?_intersperse (cs : List Char) : (cs.intersperse '+').head? = cs.head? := by
  cases cs with
  | nil => rfl
  | cons x xs => cases xs <;> rfl

theorem getLast?_intersperse (cs : List Char) :
    (cs.intersperse '+').getLast? = cs.getLast? := by
  induction cs with
  | nil => rfl
  | cons x xs ih =>
    cases xs with
    | nil => rfl
    | cons y zs =>
      rw [List.intersperse_cons₂, List.getLast?_cons_cons]
      cases hz : List.intersperse '+' (y :: zs) with
      | nil => cases zs <;> simp at hz
      | cons a as =>
        rw [List.getLast?_cons_cons, ← hz, ih, List.getLast?_cons_cons]

theorem sorted_digits (ds : List Char) (hds : ∀ d ∈ ds, d.isDigit = true) :
    ∀ c ∈ ds.insertionSort (· ≤ ·), c.isDigit = true :=
  fun c hc => hds c ((List.mem_insertionSort (· ≤ ·)).mp hc)

/-- C1: on every well-formed input (digits separated by single `'+'`) the printed
string is the input's digits sorted ascending and joined by single `'+'`
characters (standard output is that string and a line terminator); it neither
starts nor ends with `'+'`; a one-character input is reproduced unchanged. -/
theorem answer_sorted_joined (s : List Char) (h : wellFormed s = true) :
    answer s = ((digitsOf s).insertionSort (· ≤ ·)).intersperse '+'
    ∧ main s = ((digitsOf s).insertionSort (· ≤ ·)).intersperse '+' ++ ['\n']
    ∧ (answer s).head? ≠ some '+'
    ∧ (answer s).getLast? ≠ some '+'
    ∧ (s.length = 1 → answer s = s) := by
  obtain ⟨ds, hne, hds, rfl⟩ := wellFormed_decomp s h
  have hans := answer_intersperse ds hds hne
  have hdig := digitsOf_intersperse ds hds
  have hsd := sorted_digits ds hds
  refine ⟨by rw [hans, hdig], by rw [main, hans, hdig], ?_, ?_, ?_⟩
  · rw [hans, head?_intersperse]
    intro hh
    exact isDigit_ne_plus _ (hsd _ (List.mem_of_mem_head? hh)) rfl
  · rw [hans, getLast?_intersperse]
    intro hh
    exact isDigit_ne_plus _ (hsd _ (List.mem_of_getLast?_eq_some hh)) rfl
  · intro hlen
    rw [hans]
    match ds, hne with
    | [d], _ => simp
    | x :: y :: zs, _ => simp [List.intersperse_cons₂] at hlen

/-- Witness for C1 at `"3+2+1"`, with the two sample runs `"3+2+1"` and `"5"`. -/
theorem answer_sorted_joined_witness :
    wellFormed "3+2+1".toList = true
    ∧ (answer "3+2+1".toList
          = ((digitsOf "3+2+1".toList).insertionSort (· ≤ ·)).intersperse '+'
        ∧ main "3+2+1".toList
          = ((digitsOf "3+2+1".toList).insertionSort (· ≤ ·)).intersperse '+' ++ ['\n']
        ∧ (answer "3+2+1".toList).head? ≠ some '+'
        ∧ (answer "3+2+1".toList).getLast? ≠ some '+'
        ∧ ("3+2+1".toList.length = 1 → answer "3+2+1".toList = "3+2+1".toList))
    ∧ answer "3+2+1".toList = "1+2+3".toList
    ∧ answer "5".toList = "5".toList :=
  ⟨by decide, answer_sorted_joined "3+2+1".toList (by decide), by decide, by decide⟩

/-- C2: on every well-formed input the multiset of digits in the printed string
equals the multiset of digits in the input. -/
theorem answer_digits_multiset (s : List Char) (h : wellFormed s = true) :
    (↑(digitsOf (answer s)) : Multiset Char) = ↑(digitsOf s) := by
  obtain ⟨ds, hne, hds, rfl⟩ := wellFormed_decomp s h
  rw [answer_intersperse ds hds hne, digitsOf_intersperse ds hds,
    digitsOf_intersperse _ (sorted_digits ds hds)]
  exact Multiset.coe_eq_coe.mpr (List.perm_insertionSort _ ds)

/-- Witness for C2 at `"3+2+1"`. -/
theorem answer_digits_multiset_witness :
    wellFormed "3+2+1".toList = true
    ∧ (↑(digitsOf (answer "3+2+1".toList)) : Multiset Char) = ↑(digitsOf "3+2+1".toList) :=
  ⟨by decide, answer_digits_multiset "3+2+1".toList (by decide)⟩

/-- C3: on every well-formed input the digits of the printed string, read left to
right, are in non-decreasing order. -/
theorem answer_digits_sorted (s : List Char) (h : wellFormed s = true) :
    (digitsOf (answer s)).Sorted (· ≤ ·) := by
  obtain ⟨ds, hne, hds, rfl⟩ := wellFormed_decomp s h
  rw [answer_intersperse ds hds hne, digitsOf_intersperse _ (sorted_digits ds hds)]
  exact List.sorted_insertionSort _ ds

/-- Witness for C3 at `"3+2+1"`. -/
theorem answer_digits_sorted_witness :
    wellFormed "3+2+1".toList = true
    ∧ (digitsOf (answer "3+2+1".toList)).Sorted (· ≤ ·) :=
  ⟨by decide, answer_digits_sorted "3+2+1".toList (by decide)⟩

/-- C4: on every well-formed input the printed string has exactly as many `'+'`
characters as the input. -/
theorem answer_plusCount (s : List Char) (h : wellFormed s = true) :
    plusCount (answer s) = plusCount s := by
  obtain ⟨ds, hne, hds, rfl⟩ := wellFormed_decomp s h
  rw [answer_intersperse ds hds hne]
  unfold plusCount
  rw [count_plus_intersperse ds hds, count_plus_intersperse _ (sorted_digits ds hds),
    List.length_insertionSort]

/-- Witness for C4 at `"3+2+1"`. -/
theorem answer_plusCount_witness :
    wellFormed "3+2+1".toList = true
    ∧ plusCount (answer "3+2+1".toList) = plusCount "3+2+1".toList :=
  ⟨by decide, answer_plusCount "3+2+1".toList (by decide)⟩

end HelpfulMaths

namespace Word

/-! ## 59A Word -/

theorem foldl_countStep (s : List Char) (st : CaseCount) :
    s.foldl countStep st =
      ⟨st.lower_words_count + (s.countP Char.isLower : Nat),
        st.upper_words_count + (s.countP (fun c => !c.isLower) : Nat)⟩ := by
  induction s generalizing st with
  | nil => simp
  | cons c cs ih =>
    rw [List.foldl_cons, ih]
    by_cases hc : c.isLower = true
    · simp [countStep, hc]
      omega
    · simp [countStep, hc]
      omega

theorem countCase_eq (s : List Char) :
    countCase s = ⟨(s.countP Char.isLower : Nat), (s.countP (fun c => !c.isLower) : Nat)⟩ := by
  simp [countCase, foldl_countStep]

theorem foldl_append_singleton (f : Char → Char) (s out : List Char) :
    s.foldl (fun out it => out ++ [f it]) out = out ++ s.map f := by
  induction s generalizing out with
  | nil => simp
  | cons c cs ih => simp [ih]

theorem main_eq_map (s : List Char) : main s = s.map (recase (countCase s)) := by
  simp [main, foldl_append_singleton]

theorem main_eq_ite (s : List Char) :
    main s = if s.countP Char.isLower < s.countP (fun c => !c.isLower)
      then s.map Char.toUpper else s.map Char.toLower := by
  rw [main_eq_map, countCase_eq]
  by_cases h : s.countP Char.isLower < s.countP (fun c => !c.isLower)
  · have h2 : ((s.countP Char.isLower : Nat) : Int) < (s.countP (fun c => !c.isLower) : Nat) := by
      exact_mod_cast h
    rw [if_pos h]
    exact List.map_congr_left (fun c _ => by simp [recase, h2])
  · have h2 : ¬ ((s.countP Char.isLower : Nat) : Int) < (s.countP (fun c => !c.isLower) : Nat) := by
      exact_mod_cast h
    rw [if_neg h]
    exact List.map_congr_left (fun c _ => by simp [recase, h2])

theorem isLower_iff (c : Char) : c.isLower = true ↔ 97 ≤ c.toNat ∧ c.toNat ≤ 122 := by
  simp only [Char.isLower, Bool.and_eq_true, decide_eq_true_eq]
  exact Iff.rfl

theorem isUpper_iff (c : Char) : c.isUpper = true ↔ 65 ≤ c.toNat ∧ c.toNat ≤ 90 := by
  simp only [Char.isUpper, Bool.and_eq_true, decide_eq_true_eq]
  exact Iff.rfl

theorem not_isLower_of_isAlpha (c : Char) (h : c.isAlpha = true) : (!c.isLower) = c.isUpper := by
  simp only [Char.isAlpha, Bool.or_eq_true] at h
  have hl := isLower_iff c
  have hu := isUpper_iff c
  cases hlo : c.isLower <;> cases hup : c.isUpper <;> simp_all
  omega

/-- C5: for every word, when the lowercase characters are strictly fewer than the
other characters the output is the word uppercased throughout, and otherwise
(lowercase count at least the count of the others) it is the word lowercased
throughout; sample runs `"cOMPUTER"` and `"HoUse"`. -/
theorem main_decision_rule :
    (∀ s : List Char, main s =
      if s.countP Char.isLower < s.countP (fun c => !c.isLower)
      then s.map Char.toUpper else s.map Char.toLower)
    ∧ main "cOMPUTER".toList = "COMPUTER".toList
    ∧ main "HoUse".toList = "house".toList :=
  ⟨main_eq_ite, by decide, by decide⟩

/-- C6: an alphabetic word with as many lowercase as uppercase letters is printed
lowercased throughout. -/
theorem main_tie_lowercases (s : List Char) (halpha : ∀ c ∈ s, c.isAlpha = true)
    (htie : s.countP Char.isLower = s.countP Char.isUpper) :
    main s = s.map Char.toLower := by
  have hcount : s.countP (fun c => !c.isLower) = s.countP Char.isUpper :=
    List.countP_congr (fun c hc => by rw [not_isLower_of_isAlpha c (halpha c hc)])
  rw [main_eq_ite, hcount, htie, if_neg (lt_irrefl _)]

/-- Witness for C6 at `"Aa"`, which is printed as `"aa"`. -/
theorem main_tie_lowercases_witness :
    (∀ c ∈ "Aa".toList, c.isAlpha = true)
    ∧ "Aa".toList.countP Char.isLower = "Aa".toList.countP Char.isUpper
    ∧ main "Aa".toList = "Aa".toList.map Char.toLower
    ∧ main "Aa".toList = "aa".toList :=
  ⟨by decide, by decide, main_tie_lowercases "Aa".toList (by decide) (by decide), by decide⟩

/-- C7 as stated fails: the word `"HoUSE"` is not printed as `"house"`. -/
theorem HoUSE_not_lowercased : main "HoUSE".toList ≠ "house".toList := by decide

/-- C7 amended: `"HoUSE"` has one lowercase and four uppercase letters and is printed
uppercased, as `"HOUSE"`; the majority-lower word `"HoUse"` (three lowercase, two
uppercase) is the one printed as `"house"`. -/
theorem HoUSE_uppercased :
    "HoUSE".toList.countP Char.isLower = 1
    ∧ "HoUSE".toList.countP Char.isUpper = 4
    ∧ main "HoUSE".toList = "HOUSE".toList
    ∧ "HoUse".toList.countP Char.isLower = 3
    ∧ "HoUse".toList.countP Char.isUpper = 2
    ∧ main "HoUse".toList = "house".toList := by
  decide

/-- C8: for every word (alphabetic or not) the output has the length of the input
and is the input with one casing applied at every position: either every
character uppercased or every character lowercased. -/
theorem main_uniform_casing (s : List Char) :
    (main s).length = s.length
    ∧ (main s = s.map Char.toUpper ∨ main s = s.map Char.toLower)
    ∧ ((∀ (i : Nat) (hi : i < s.length), (main s)[i]? = some s[i].toUpper)
        ∨ (∀ (i : Nat) (hi : i < s.length), (main s)[i]? = some s[i].toLower)) := by
  rw [main_eq_ite]
  split
  · exact ⟨by simp, Or.inl rfl, Or.inl (fun i hi => by simp [List.getElem?_eq_getElem hi])⟩
  · exact ⟨by simp, Or.inr rfl, Or.inr (fun i hi => by simp [List.getElem?_eq_getElem hi])⟩

end Word

namespace WayTooLongWords

/-! ## 71A Way Too Long Words -/

theorem foldl_count (l : List Nat) (init : Int) :
    l.foldl (fun count _ => count + 1) init = init + (l.length : Nat) := by
  induction l generalizing init with
  | nil => simp
  | cons x xs ih =>
    rw [List.foldl_cons, ih]
    simp only [List.length_cons]
    push_cast
    omega

theorem countLoop_eq (it : List Char) : countLoop it = ((it.length - 2 : Nat) : Int) := by
  unfold countLoop
  rw [foldl_count, List.length_range']
  simp only [zero_add]
  congr 1

theorem to_string_natCast (n : Nat) : to_string (n : Int) = (Nat.repr n).toList := rfl

theorem headD_eq_getElem (it : List Char) (d : Char) (h : 0 < it.length) :
    it.headD d = it[0] := by
  cases it with
  | nil => simp at h
  | cons x xs => rfl

theorem getLastD_eq_getElem (it : List Char) (d : Char) (h : 0 < it.length) :
    it.getLastD d = it[it.length - 1] := by
  cases it with
  | nil => simp at h
  | cons x xs =>
    rw [List.getLastD_cons, List.getLastD_eq_getLast?, List.getLast?_eq_getElem?]
    cases xs with
    | nil => rfl
    | cons y ys => simp [List.getElem?_eq_getElem]

theorem problem_singleton (it : List Char) : problem [it] = emitted it ++ ['\n'] := by
  simp [problem]

/-- C9: every word longer than 10 characters is written as its first character,
the decimal text of its length minus 2, and its last character (followed on
standard output by a line terminator); the counting loop ends with
`count = length - 2`, which is at least 1; a word of exactly 11 characters
gives first character, `9`, last character. -/
theorem emitted_long (it : List Char) (h : 10 < it.length) :
    emitted it = [it[0]] ++ (Nat.repr (it.length - 2)).toList ++ [it[it.length - 1]]
    ∧ problem [it]
        = [it[0]] ++ (Nat.repr (it.length - 2)).toList ++ [it[it.length - 1]] ++ ['\n']
    ∧ countLoop it = ((it.length - 2 : Nat) : Int)
    ∧ 1 ≤ countLoop it
    ∧ (it.length = 11 → emitted it = [it[0], '9', it[it.length - 1]]) := by
  have hpos : 0 < it.length := by omega
  have hem : emitted it
      = [it[0]] ++ (Nat.repr (it.length - 2)).toList ++ [it[it.length - 1]] := by
    unfold emitted
    rw [if_neg (by omega)]
    simp only
    rw [countLoop_eq, to_string_natCast, headD_eq_getElem it _ hpos,
      getLastD_eq_getElem it _ hpos]
  refine ⟨hem, by rw [problem_singleton, hem], countLoop_eq it, ?_, ?_⟩
  · rw [countLoop_eq]
    have : 1 ≤ it.length - 2 := by omega
    exact_mod_cast this
  · intro h11
    rw [hem]
    have h9 : it.length - 2 = 9 := by omega
    rw [h9]
    rfl

/-- Witness for C9 at `"localization"`, with the three sample runs. -/
theorem emitted_long_witness :
    10 < "localization".toList.length
    ∧ emitted "localization".toList
        = ['l'] ++ (Nat.repr ("localization".toList.length - 2)).toList ++ ['n']
    ∧ emitted "localization".toList = "l10n".toList
    ∧ emitted "internationalization".toList = "i18n".toList
    ∧ emitted "pneumonoultramicroscopicsilicovolcanoconiosis".toList = "p43s".toList :=
  ⟨by decide, (emitted_long "localization".toList (by decide)).1, by decide, by decide,
    by decide⟩

/-- C10: every word of at most 10 characters (10 included) is written unchanged
(followed on standard output by a line terminator). -/
theorem emitted_short (it : List Char) (h : it.length ≤ 10) :
    emitted it = it ∧ problem [it] = it ++ ['\n'] := by
  have hem : emitted it = it := by
    unfold emitted
    rw [if_pos h]
  exact ⟨hem, by rw [problem_singleton, hem]⟩

/-- Witness for C10 at the 10-character word `"abcdefghij"`. -/
theorem emitted_short_witness :
    "abcdefghij".toList.length ≤ 10
    ∧ emitted "abcdefghij".toList = "abcdefghij".toList
    ∧ problem ["abcdefghij".toList] = "abcdefghij".toList ++ ['\n'] :=
  ⟨by decide, emitted_short "abcdefghij".toList (by decide)⟩

end WayTooLongWords

/-! ## Decimal text of a natural number -/

theorem length_le_toDigitsCore (b f n : Nat) (ds : List Char) :
    ds.length ≤ (Nat.toDigitsCore b f n ds).length := by
  induction f generalizing n ds with
  | zero => simp [Nat.toDigitsCore]
  | succ f ih =>
    simp only [Nat.toDigitsCore]
    split
    · simp
    · exact Nat.le_trans (by simp) (ih _ _)

theorem digitChar_isDigit (k : Nat) (h : k < 10) : (Nat.digitChar k).isDigit = true := by
  interval_cases k <;> decide

theorem toDigitsCore_isDigit (f n : Nat) (ds : List Char) (hds : ∀ c ∈ ds, c.isDigit = true) :
    ∀ c ∈ Nat.toDigitsCore 10 f n ds, c.isDigit = true := by
  induction f generalizing n ds with
  | zero => simpa [Nat.toDigitsCore] using hds
  | succ f ih =>
    have hd : (Nat.digitChar (n % 10)).isDigit = true :=
      digitChar_isDigit _ (Nat.mod_lt _ (by decide))
    have hcons : ∀ c ∈ Nat.digitChar (n % 10) :: ds, c.isDigit = true := by
      intro c hc
      rcases List.mem_cons.mp hc with rfl | hc
      · exact hd
      · exact hds c hc
    simp only [Nat.toDigitsCore]
    split
    · exact hcons
    · exact ih _ _ hcons

/-- Every character of the decimal text of a natural number is a digit. -/
theorem repr_isDigit (n : Nat) : ∀ c ∈ (Nat.repr n).toList, c.isDigit = true := by
  intro c hc
  exact toDigitsCore_isDigit (n + 1) n [] (by simp) c hc

/-- The decimal text of a number from 10 on has at least two characters. -/
theorem two_le_repr_length (n : Nat) (h : 10 ≤ n) : 2 ≤ (Nat.repr n).toList.length := by
  have hdiv : n / 10 ≠ 0 := by omega
  show 2 ≤ (Nat.toDigitsCore 10 (n + 1) n []).length
  simp only [Nat.toDigitsCore, hdiv, if_false]
  obtain ⟨m, rfl⟩ : ∃ m, n = m + 1 := ⟨n - 1, by omega⟩
  simp only [Nat.toDigitsCore]
  split
  · simp
  · exact Nat.le_trans (by simp) (length_le_toDigitsCore _ _ _ _)

/-- The decimal text of a number from 2 on is shorter than the number itself. -/
theorem repr_length_lt (n : Nat) (h : 2 ≤ n) : (Nat.repr n).toList.length < n := by
  have h1 : n - 1 < 2 ^ (n - 1) := Nat.lt_two_pow _
  have h2 : 2 ^ (n - 1) < 10 ^ (n - 1) := Nat.pow_lt_pow_left (by decide) (by omega)
  have h3 : (Nat.repr n).length ≤ n - 1 := Nat.repr_length n (n - 1) (by omega) (by omega)
  have h4 : (Nat.repr n).toList.length = (Nat.repr n).length := rfl
  omega

namespace WayTooLongWords

/-! ## 71A Way Too Long Words: abbreviation length and line structure -/

theorem emitted_of_long (it : List Char) (h : 10 < it.length) :
    emitted it = [it.headD (Char.ofNat 0)] ++ (Nat.repr (it.length - 2)).toList
      ++ [it.getLastD (Char.ofNat 0)] := by
  unfold emitted
  rw [if_neg (by omega)]
  simp only
  rw [countLoop_eq, to_string_natCast]

theorem emitted_length_of_long (it : List Char) (h : 10 < it.length) :
    (emitted it).length = 2 + (Nat.repr (it.length - 2)).toList.length := by
  rw [emitted_of_long it h]
  simp only [List.length_append, List.length_singleton]
  omega

theorem nine_repr_length : (Nat.repr 9).toList.length = 1 := by decide

/-- C11 as stated fails: `"localization"` has more than 10 characters and its
abbreviation `"l10n"` has 4 characters, not 3. -/
theorem long_word_not_three_chars :
    10 < "localization".toList.length ∧ (emitted "localization".toList).length ≠ 3 := by
  decide

/-- C11 amended: the abbreviation of a word longer than 10 characters has 2
characters more than the decimal text of its length minus 2, so at least 3; it has
exactly 3 characters precisely when the word has 11 characters, and at least 4
otherwise. -/
theorem abbreviation_length (it : List Char) (h : 10 < it.length) :
    (emitted it).length = 2 + (Nat.repr (it.length - 2)).toList.length
    ∧ 3 ≤ (emitted it).length
    ∧ ((emitted it).length = 3 ↔ it.length = 11)
    ∧ (11 < it.length → 4 ≤ (emitted it).length) := by
  have hlen := emitted_length_of_long it h
  have hbig : 11 < it.length → 2 ≤ (Nat.repr (it.length - 2)).toList.length :=
    fun h12 => two_le_repr_length _ (by omega)
  have h11 : it.length = 11 → (Nat.repr (it.length - 2)).toList.length = 1 := by
    intro h11
    rw [h11]
    exact nine_repr_length
  refine ⟨hlen, ?_, ?_, ?_⟩
  · rcases Nat.eq_or_lt_of_le (Nat.succ_le_of_lt h) with heq | hlt
    · have := h11 heq.symm
      omega
    · have := hbig hlt
      omega
  · constructor
    · intro h3
      by_contra hne
      have := hbig (by omega)
      omega
    · intro heq
      have := h11 heq
      omega
  · intro h12
    have := hbig h12
    omega

/-- Witness for the amended C11 at the 11-character word `"abcdefghijk"`. -/
theorem abbreviation_length_witness :
    10 < "abcdefghijk".toList.length
    ∧ ((emitted "abcdefghijk".toList).length
          = 2 + (Nat.repr ("abcdefghijk".toList.length - 2)).toList.length
      ∧ 3 ≤ (emitted "abcdefghijk".toList).length
      ∧ ((emitted "abcdefghijk".toList).length = 3 ↔ "abcdefghijk".toList.length = 11)
      ∧ (11 < "abcdefghijk".toList.length → 4 ≤ (emitted "abcdefghijk".toList).length))
    ∧ emitted "abcdefghijk".toList = "a9k".toList :=
  ⟨by decide, abbreviation_length "abcdefghijk".toList (by decide), by decide⟩

/-- C18: a word longer than 10 characters is written as a strictly shorter text
(2 plus the number of decimal digits of its length minus 2, which is less than
its length), and a word of at most 10 characters is written with its own
length. -/
theorem emitted_never_longer (it : List Char) :
    (10 < it.length →
      (emitted it).length = 2 + (Nat.repr (it.length - 2)).toList.length
      ∧ 2 + (Nat.repr (it.length - 2)).toList.length < it.length
      ∧ (emitted it).length < it.length)
    ∧ (it.length ≤ 10 → (emitted it).length = it.length) := by
  constructor
  · intro h
    have hlen := emitted_length_of_long it h
    have hlt := repr_length_lt (it.length - 2) (by omega)
    exact ⟨hlen, by omega, by omega⟩
  · intro h
    unfold emitted
    rw [if_pos h]

/-- Witness for C18 at `"localization"` (long) and `"word"` (short). -/
theorem emitted_never_longer_witness :
    10 < "localization".toList.length
    ∧ (emitted "localization".toList).length < "localization".toList.length
    ∧ "word".toList.length ≤ 10
    ∧ (emitted "word".toList).length = "word".toList.length :=
  ⟨by decide, ((emitted_never_longer "localization".toList).1 (by decide)).2.2, by decide,
    (emitted_never_longer "word".toList).2 (by decide)⟩

theorem readWords_all (ts : List (List Char)) (k : List Char) (input : List (List Char)) :
    readWords ts.length ts k input = input ++ ts := by
  induction ts generalizing k input with
  | nil => simp [readWords]
  | cons t ts ih =>
    simp only [List.length_cons, readWords]
    rw [ih]
    simp

theorem main_eq_problem (k : List (List Char)) : main (k.length : Int) k = problem k := by
  unfold main
  rw [Int.toNat_ofNat, readWords_all]
  rfl

theorem foldl_emitted (k : List (List Char)) (out : List Char) :
    k.foldl (fun out it => out ++ emitted it ++ ['\n']) out
      = out ++ k.foldl (fun out it => out ++ emitted it ++ ['\n']) [] := by
  induction k generalizing out with
  | nil => simp
  | cons w ws ih =>
    rw [List.foldl_cons, ih, List.foldl_cons, ih ([] ++ emitted w ++ ['\n'])]
    simp

theorem problem_cons (w : List Char) (k : List (List Char)) :
    problem (w :: k) = emitted w ++ '\n' :: problem k := by
  unfold problem
  rw [List.foldl_cons, foldl_emitted]
  simp

theorem splitLinesFrom_line (w rest cur : List Char) (hw : '\n' ∉ w) :
    splitLinesFrom (w ++ '\n' :: rest) cur = (cur ++ w) :: splitLinesFrom rest [] := by
  induction w generalizing cur with
  | nil => simp [splitLinesFrom]
  | cons c cs ih =>
    have hc : c ≠ '\n' := fun h => hw (by simp [h])
    have hcs : '\n' ∉ cs := fun h => hw (List.mem_cons_of_mem _ h)
    rw [List.cons_append, splitLinesFrom, if_neg hc, ih _ hcs]
    simp

theorem head?_toList_of_long (it : List Char) (d : Char) (h : 0 < it.length) :
    it.head?.toList = [it.headD d] := by
  cases it with
  | nil => simp at h
  | cons x xs => rfl

theorem getLast?_toList_of_long (it : List Char) (d : Char) (h : 0 < it.length) :
    it.getLast?.toList = [it.getLastD d] := by
  cases it with
  | nil => simp at h
  | cons x xs =>
    rw [List.getLastD_eq_getLast?]
    cases hl : (x :: xs).getLast? with
    | none => simp at hl
    | some a => rfl

theorem emitted_verbatim_or_abbreviation (it : List Char) :
    emitted it = it ∨ emitted it = abbreviation it := by
  by_cases h : it.length ≤ 10
  · left
    unfold emitted
    rw [if_pos h]
  · right
    rw [emitted_of_long it (by omega), abbreviation,
      head?_toList_of_long it (Char.ofNat 0) (by omega),
      getLast?_toList_of_long it (Char.ofNat 0) (by omega)]

theorem newline_not_mem_emitted (it : List Char) (hw : '\n' ∉ it) : '\n' ∉ emitted it := by
  rcases emitted_verbatim_or_abbreviation it with h | h
  · rw [h]; exact hw
  · rw [h, abbreviation]
    intro hmem
    rcases List.mem_append.mp hmem with hmem | hmem
    · rcases List.mem_append.mp hmem with hmem | hmem
      · exact hw (List.mem_of_mem_head? (by simpa using hmem))
      · exact absurd (repr_isDigit _ _ hmem) (by decide)
    · exact hw (List.mem_of_getLast?_eq_some (by simpa using hmem))

theorem splitLines_problem (k : List (List Char)) (hk : ∀ w ∈ k, '\n' ∉ w) :
    splitLines (problem k) = k.map emitted := by
  induction k with
  | nil => rfl
  | cons w ws ih =>
    have hw := newline_not_mem_emitted w (hk w (List.mem_cons_self _ _))
    have ih := ih (fun v hv => hk v (List.mem_cons_of_mem _ hv))
    unfold splitLines at ih ⊢
    rw [problem_cons, splitLinesFrom_line _ _ _ hw, ih]
    simp

/-- C12: for a list of `n` words (tokens, so free of line breaks) the program's
output is that of `problem` on the list and consists of exactly `n` lines; line
`i` is the text written for word `i` alone, which is word `i` verbatim or the
abbreviation of word `i`. -/
theorem main_lines (k : List (List Char)) (hk : ∀ w ∈ k, '\n' ∉ w) :
    main (k.length : Int) k = problem k
    ∧ splitLines (main (k.length : Int) k) = k.map emitted
    ∧ (splitLines (main (k.length : Int) k)).length = k.length
    ∧ ∀ (i : Nat) (hi : i < k.length),
        (splitLines (main (k.length : Int) k))[i]? = some (emitted k[i])
        ∧ (emitted k[i] = k[i] ∨ emitted k[i] = abbreviation k[i]) := by
  rw [main_eq_problem, splitLines_problem k hk]
  refine ⟨rfl, rfl, by simp, ?_⟩
  intro i hi
  exact ⟨by simp [List.getElem?_eq_getElem hi], emitted_verbatim_or_abbreviation _⟩

/-- Witness for C12 at the four sample words. -/
theorem main_lines_witness :
    (∀ w ∈ ["word".toList, "localization".toList, "internationalization".toList,
        "pneumonoultramicroscopicsilicovolcanoconiosis".toList], '\n' ∉ w)
    ∧ splitLines (main 4 ["word".toList, "localization".toList, "internationalization".toList,
        "pneumonoultramicroscopicsilicovolcanoconiosis".toList])
      = ["word".toList, "localization".toList, "internationalization".toList,
        "pneumonoultramicroscopicsilicovolcanoconiosis".toList].map emitted
    ∧ main 4 ["word".toList, "localization".toList, "internationalization".toList,
        "pneumonoultramicroscopicsilicovolcanoconiosis".toList]
      = "word\nl10n\ni18n\np43s\n".toList :=
  ⟨by decide,
   (main_lines ["word".toList, "localization".toList, "internationalization".toList,
        "pneumonoultramicroscopicsilicovolcanoconiosis".toList] (by decide)).2.1,
   by decide⟩

end WayTooLongWords

namespace AntonAndDanik

/-! ## 734A Anton and Danik -/

theorem foldl_tallyStep_range (game : List Char) (st : Tally) (i : Nat) (hi : i ≤ game.length) :
    (List.range i).foldl (tallyStep game) st =
      ⟨st.anton_win_count + ((game.take i).count 'A' : Nat),
        st.danik_win_count + ((game.take i).countP (fun c => c != 'A') : Nat)⟩ := by
  induction i with
  | zero => simp
  | succ i ih =>
    have hlt : i < game.length := hi
    rw [List.range_succ, List.foldl_append, ih (Nat.le_of_lt hlt), List.take_succ,
      List.getElem?_eq_getElem hlt]
    simp only [List.foldl_cons, List.foldl_nil, tallyStep, List.getD_eq_getElem?_getD,
      List.getElem?_eq_getElem hlt, Option.getD_some, Option.toList_some, List.count_append,
      List.countP_append]
    by_cases hA : game[i] = 'A'
    · simp [hA]
      omega
    · simp [hA, List.count_cons]
      omega

theorem tally_eq (n : Int) (game : List Char) (hn : (game.length : Int) = n) :
    tally n game = ⟨(game.count 'A' : Nat), (game.countP (fun c => c != 'A') : Nat)⟩ := by
  subst hn
  unfold tally
  rw [Int.toNat_ofNat, foldl_tallyStep_range game _ _ (Nat.le_refl _)]
  simp

theorem verdict_eq_ite (n : Int) (game : List Char) (hn : (game.length : Int) = n) :
    main n game =
      if game.count 'A' > game.countP (fun c => c != 'A') then "Anton".toList
      else if game.count 'A' = game.countP (fun c => c != 'A') then "Friendship".toList
      else "Danik".toList := by
  unfold main
  rw [tally_eq n game hn]
  simp only [gt_iff_lt, Nat.cast_lt, Nat.cast_inj]

theorem sum_foldl_tallyStep (game : List Char) (is : List Nat) (st : Tally) :
    (is.foldl (tallyStep game) st).anton_win_count
        + (is.foldl (tallyStep game) st).danik_win_count
      = st.anton_win_count + st.danik_win_count + (is.length : Nat) := by
  induction is generalizing st with
  | nil => simp
  | cons i is ih =>
    rw [List.foldl_cons, ih]
    simp only [List.length_cons]
    by_cases hA : game.getD i (Char.ofNat 0) = 'A'
    · simp only [tallyStep, hA, if_true]
      push_cast
      omega
    · simp only [tallyStep, hA, if_false]
      push_cast
      omega

/-- C13: for every `n` and every game string of length `n`, with `a` the number of
`'A'` characters and `d` the number of other characters, the output is `Anton`
when `a > d`, `Friendship` when `a = d`, and `Danik` otherwise. -/
theorem main_verdict (n : Int) (game : List Char) (hn : (game.length : Int) = n) :
    main n game =
      if game.count 'A' > game.countP (fun c => c != 'A') then "Anton".toList
      else if game.count 'A' = game.countP (fun c => c != 'A') then "Friendship".toList
      else "Danik".toList :=
  verdict_eq_ite n game hn

/-- Witness for C13 at `n = 6`, `"ADAAAA"`, with the three sample runs. -/
theorem main_verdict_witness :
    (("ADAAAA".toList.length : Nat) : Int) = 6
    ∧ main 6 "ADAAAA".toList =
      (if "ADAAAA".toList.count 'A' > "ADAAAA".toList.countP (fun c => c != 'A')
        then "Anton".toList
        else if "ADAAAA".toList.count 'A' = "ADAAAA".toList.countP (fun c => c != 'A')
        then "Friendship".toList
        else "Danik".toList)
    ∧ main 6 "ADAAAA".toList = "Anton".toList
    ∧ main 4 "DADA".toList = "Friendship".toList
    ∧ main 1 "D".toList = "Danik".toList :=
  ⟨by decide, main_verdict 6 "ADAAAA".toList (by decide), by decide, by decide, by decide⟩

/-- C16: for every `n` and every game string of length `n`, the two counters sum
to `n` when the counting loop has finished, and to `i` after each of its first
`i` iterations (`i ≤ n`); the state after `n` iterations is the final one. -/
theorem tally_sum (n : Int) (game : List Char) (hn : (game.length : Int) = n) :
    (tally n game).anton_win_count + (tally n game).danik_win_count = n
    ∧ (∀ i : Nat, (i : Int) ≤ n →
        (tallyAfter n game i).anton_win_count + (tallyAfter n game i).danik_win_count = i)
    ∧ tallyAfter n game game.length = tally n game := by
  subst hn
  refine ⟨?_, ?_, ?_⟩
  · unfold tally
    rw [sum_foldl_tallyStep]
    simp
  · intro i hi
    have hi2 : i ≤ game.length := by exact_mod_cast hi
    unfold tallyAfter
    rw [sum_foldl_tallyStep]
    simp [hi2]
  · unfold tallyAfter tally
    rw [Int.toNat_ofNat, List.take_of_length_le (by simp)]

/-- Witness for C16 at `n = 4`, `"DADA"`. -/
theorem tally_sum_witness :
    (("DADA".toList.length : Nat) : Int) = 4
    ∧ ((tally 4 "DADA".toList).anton_win_count + (tally 4 "DADA".toList).danik_win_count = 4
      ∧ (∀ i : Nat, (i : Int) ≤ 4 →
          (tallyAfter 4 "DADA".toList i).anton_win_count
            + (tallyAfter 4 "DADA".toList i).danik_win_count = i)
      ∧ tallyAfter 4 "DADA".toList "DADA".toList.length = tally 4 "DADA".toList) :=
  ⟨by decide, tally_sum 4 "DADA".toList (by decide)⟩

theorem count_swapPlayers (game : List Char) (h : ∀ c ∈ game, c = 'A' ∨ c = 'D') :
    (game.map swapPlayers).count 'A' = game.countP (fun c => c != 'A')
    ∧ (game.map swapPlayers).countP (fun c => c != 'A') = game.count 'A' := by
  induction game with
  | nil => simp
  | cons c cs ih =>
    obtain ⟨ih1, ih2⟩ := ih (fun d hd => h d (List.mem_cons_of_mem _ hd))
    have b1 : ('D' == 'A') = false := by decide
    have b2 : ('A' != 'A') = false := by decide
    have b3 : ('D' != 'A') = true := by decide
    have b4 : ('A' == 'A') = true := by decide
    rcases h c (List.mem_cons_self _ _) with rfl | rfl
    · have e1 : swapPlayers 'A' = 'D' := by decide
      rw [List.map_cons, e1, List.count_cons, List.countP_cons, List.countP_cons,
        List.count_cons, ih1, ih2]
      exact ⟨by simp [b1, b2, b3, b4], by simp [b1, b2, b3, b4]⟩
    · have e1 : swapPlayers 'D' = 'A' := by decide
      rw [List.map_cons, e1, List.count_cons, List.countP_cons, List.countP_cons,
        List.count_cons, ih1, ih2]
      exact ⟨by simp [b1, b2, b3, b4], by simp [b1, b2, b3, b4]⟩

/-- C20: for every game string of length `n` over the alphabet `A`, `D`, exchanging
the two symbols turns the result `Anton` into `Danik`, `Danik` into `Anton`, and
keeps `Friendship`. -/
theorem main_swapPlayers (n : Int) (game : List Char) (hn : (game.length : Int) = n)
    (h : ∀ c ∈ game, c = 'A' ∨ c = 'D') :
    (main n game = "Anton".toList → main n (game.map swapPlayers) = "Danik".toList)
    ∧ (main n game = "Danik".toList → main n (game.map swapPlayers) = "Anton".toList)
    ∧ (main n game = "Friendship".toList
        → main n (game.map swapPlayers) = "Friendship".toList) := by
  obtain ⟨h1, h2⟩ := count_swapPlayers game h
  rw [verdict_eq_ite n game hn, verdict_eq_ite n (game.map swapPlayers) (by simpa using hn),
    h1, h2]
  generalize game.count 'A' = a
  generalize game.countP (fun c => c != 'A') = d
  have hAD : "Anton".toList ≠ "Danik".toList := by decide
  have hAF : "Anton".toList ≠ "Friendship".toList := by decide
  have hFD : "Friendship".toList ≠ "Danik".toList := by decide
  rcases Nat.lt_trichotomy a d with hlt | heq | hgt
  · have n1 : ¬ a > d := by omega
    have n2 : ¬ a = d := by omega
    have n3 : ¬ d = a := by omega
    rw [if_neg n1, if_neg n2, if_pos hlt]
    exact ⟨fun e => absurd e.symm hAD, fun _ => rfl, fun e => absurd e.symm hFD⟩
  · subst heq
    rw [if_neg (lt_irrefl a), if_pos rfl]
    exact ⟨fun e => absurd e.symm hAF, fun e => absurd e hFD, fun _ => rfl⟩
  · have n1 : ¬ d > a := by omega
    have n2 : ¬ d = a := by omega
    rw [if_pos hgt, if_neg n1, if_neg n2]
    exact ⟨fun _ => rfl, fun e => absurd e hAD, fun e => absurd e hAF⟩

/-- Witness for C20 at `n = 6`, `"ADAAAA"`, whose exchange is `"DADDDD"`. -/
theorem main_swapPlayers_witness :
    (("ADAAAA".toList.length : Nat) : Int) = 6
    ∧ (∀ c ∈ "ADAAAA".toList, c = 'A' ∨ c = 'D')
    ∧ main 6 "ADAAAA".toList = "Anton".toList
    ∧ "ADAAAA".toList.map swapPlayers = "DADDDD".toList
    ∧ main 6 ("ADAAAA".toList.map swapPlayers) = "Danik".toList :=
  ⟨by decide, by decide, by decide, by decide,
    (main_swapPlayers 6 "ADAAAA".toList (by decide) (by decide)).1 (by decide)⟩

end AntonAndDanik

namespace Word

/-! ## 59A Word: counters and repeated application -/

theorem toUpper_of_not_isLower (c : Char) (h : c.isLower = false) : c.toUpper = c := by
  have hl := isLower_iff c
  have hn : ¬ (c.toNat ≥ 97 ∧ c.toNat ≤ 122) := by
    intro hh
    rw [hl.mpr hh] at h
    exact absurd h (by decide)
  simp only [Char.toUpper, if_neg hn]

theorem toNat_ofNat_of_lt (m : Nat) (h : m < 128) : (Char.ofNat m).toNat = m := by
  interval_cases m <;> rfl

theorem toUpper_not_isLower (c : Char) : c.toUpper.isLower = false := by
  by_cases hc : c.toNat ≥ 97 ∧ c.toNat ≤ 122
  · have h1 : c.toUpper = Char.ofNat (c.toNat - 32) := by simp only [Char.toUpper, if_pos hc]
    have h2 := toNat_ofNat_of_lt (c.toNat - 32) (by omega)
    have h3 := isLower_iff (Char.ofNat (c.toNat - 32))
    rw [h1]
    cases hb : (Char.ofNat (c.toNat - 32)).isLower with
    | false => rfl
    | true =>
      have := h3.mp hb
      omega
  · have h1 : c.toUpper = c := by simp only [Char.toUpper, if_neg hc]
    rw [h1]
    cases hb : c.isLower with
    | false => rfl
    | true => exact absurd ((isLower_iff c).mp hb) hc

theorem toLower_of_isLower (c : Char) (h : c.isLower = true) : c.toLower = c := by
  have hl := (isLower_iff c).mp h
  have hn : ¬ (c.toNat ≥ 65 ∧ c.toNat ≤ 90) := by omega
  simp only [Char.toLower, if_neg hn]

theorem toLower_toLower (c : Char) : c.toLower.toLower = c.toLower := by
  by_cases hc : c.toNat ≥ 65 ∧ c.toNat ≤ 90
  · have h1 : c.toLower = Char.ofNat (c.toNat + 32) := by simp only [Char.toLower, if_pos hc]
    have h2 := toNat_ofNat_of_lt (c.toNat + 32) (by omega)
    have hn : ¬ ((Char.ofNat (c.toNat + 32)).toNat ≥ 65
        ∧ (Char.ofNat (c.toNat + 32)).toNat ≤ 90) := by omega
    rw [h1]
    simp only [Char.toLower, if_neg hn]
  · have h1 : c.toLower = c := by simp only [Char.toLower, if_neg hc]
    rw [h1, h1]

theorem toUpper_toUpper (c : Char) : c.toUpper.toUpper = c.toUpper :=
  toUpper_of_not_isLower _ (toUpper_not_isLower c)

theorem countP_isLower_add (s : List Char) :
    s.countP Char.isLower + s.countP (fun c => !c.isLower) = s.length := by
  induction s with
  | nil => rfl
  | cons c cs ih =>
    rw [List.countP_cons, List.countP_cons, List.length_cons]
    cases hc : c.isLower <;> simp <;> omega

theorem countP_isLower_map_toUpper (s : List Char) :
    (s.map Char.toUpper).countP Char.isLower = 0 := by
  rw [List.countP_eq_zero]
  intro c hc
  obtain ⟨d, _, rfl⟩ := List.mem_map.mp hc
  rw [toUpper_not_isLower]
  decide

theorem countP_isLower_le_map_toLower (s : List Char) :
    s.countP Char.isLower ≤ (s.map Char.toLower).countP Char.isLower := by
  rw [List.countP_map]
  apply List.countP_mono_left
  intro c _ hc
  simpa [toLower_of_isLower c hc] using hc

/-- C14: for every word, running the program on its own output gives that output
again. -/
theorem main_idempotent (s : List Char) : main (main s) = main s := by
  rw [main_eq_ite s]
  by_cases h : s.countP Char.isLower < s.countP (fun c => !c.isLower)
  · rw [if_pos h, main_eq_ite]
    have h0 := countP_isLower_map_toUpper s
    have hsum := countP_isLower_add (s.map Char.toUpper)
    have hlen : 0 < s.length := by
      have := countP_isLower_add s
      omega
    have hlt : (s.map Char.toUpper).countP Char.isLower
        < (s.map Char.toUpper).countP (fun c => !c.isLower) := by
      rw [List.length_map] at hsum
      omega
    rw [if_pos hlt, List.map_map]
    exact List.map_congr_left (fun c _ => toUpper_toUpper c)
  · rw [if_neg h, main_eq_ite]
    have hle := countP_isLower_le_map_toLower s
    have hsum := countP_isLower_add (s.map Char.toLower)
    have hsum2 := countP_isLower_add s
    have hlt : ¬ (s.map Char.toLower).countP Char.isLower
        < (s.map Char.toLower).countP (fun c => !c.isLower) := by
      rw [List.length_map] at hsum
      omega
    rw [if_neg hlt, List.map_map]
    exact List.map_congr_left (fun c _ => toLower_toLower c)

/-- C17: for every word, whatever its characters, the two counters sum to the
word's length when the counting loop has finished: the first holds the number of
characters `islower` accepts, the second the number of all the others. -/
theorem countCase_sum (s : List Char) :
    (countCase s).lower_words_count + (countCase s).upper_words_count = s.length
    ∧ (countCase s).lower_words_count = (s.countP Char.isLower : Nat)
    ∧ (countCase s).upper_words_count = (s.countP (fun c => !c.isLower) : Nat) := by
  rw [countCase_eq]
  refine ⟨?_, rfl, rfl⟩
  have := countP_isLower_add s
  simp only
  exact_mod_cast this

end Word

namespace HelpfulMaths

/-! ## 339A Helpful Maths: repeated application and canonical form -/

theorem answer_eq_sorted (s : List Char) (h : wellFormed s = true) :
    answer s = ((digitsOf s).insertionSort (· ≤ ·)).intersperse '+' := by
  obtain ⟨ds, hne, hds, rfl⟩ := wellFormed_decomp s h
  rw [answer_intersperse ds hds hne, digitsOf_intersperse ds hds]

theorem wellFormed_intersperse (ds : List Char) (hds : ∀ d ∈ ds, d.isDigit = true)
    (hne : ds ≠ []) : wellFormed (ds.intersperse '+') = true := by
  induction ds with
  | nil => exact absurd rfl hne
  | cons x xs ih =>
    have hx : x.isDigit = true := hds x (List.mem_cons_self _ _)
    cases xs with
    | nil => simpa [wellFormed] using hx
    | cons y zs =>
      have ih := ih (fun d hd => hds d (List.mem_cons_of_mem _ hd)) (by simp)
      rw [List.intersperse_cons₂]
      simp only [wellFormed, hx, ih, beq_self_eq_true, Bool.and_self]

theorem insertionSort_ne_nil (ds : List Char) (hne : ds ≠ []) :
    ds.insertionSort (· ≤ ·) ≠ [] := by
  intro h
  have := List.length_insertionSort (· ≤ ·) ds
  rw [h] at this
  exact hne (List.length_eq_zero.mp this.symm)

/-- C15: on every well-formed input the printed string is again a well-formed
input, and running the program on it prints the same string (so the same
standard output). -/
theorem answer_idempotent (s : List Char) (h : wellFormed s = true) :
    wellFormed (answer s) = true
    ∧ answer (answer s) = answer s
    ∧ main (answer s) = main s := by
  obtain ⟨ds, hne, hds, rfl⟩ := wellFormed_decomp s h
  have hsd := sorted_digits ds hds
  have hsne := insertionSort_ne_nil ds hne
  have hidem : answer (answer (ds.intersperse '+')) = answer (ds.intersperse '+') := by
    rw [answer_intersperse ds hds hne, answer_intersperse _ hsd hsne,
      (List.sorted_insertionSort (· ≤ ·) ds).insertionSort_eq]
  refine ⟨?_, hidem, ?_⟩
  · rw [answer_intersperse ds hds hne]
    exact wellFormed_intersperse _ hsd hsne
  · rw [main, hidem, main]

/-- Witness for C15 at `"3+2+1"`. -/
theorem answer_idempotent_witness :
    wellFormed "3+2+1".toList = true
    ∧ (wellFormed (answer "3+2+1".toList) = true
      ∧ answer (answer "3+2+1".toList) = answer "3+2+1".toList
      ∧ main (answer "3+2+1".toList) = main "3+2+1".toList) :=
  ⟨by decide, answer_idempotent "3+2+1".toList (by decide)⟩

/-- C19: two well-formed inputs whose digits are permutations of one another give
the identical printed string (and identical standard output). -/
theorem answer_canonical (s t : List Char) (hs : wellFormed s = true)
    (ht : wellFormed t = true) (hperm : (digitsOf s).Perm (digitsOf t)) :
    answer s = answer t ∧ main s = main t := by
  have hsort : (digitsOf s).insertionSort (· ≤ ·) = (digitsOf t).insertionSort (· ≤ ·) :=
    List.eq_of_perm_of_sorted
      (((List.perm_insertionSort (· ≤ ·) _).trans hperm).trans
        (List.perm_insertionSort (· ≤ ·) _).symm)
      (List.sorted_insertionSort (· ≤ ·) _) (List.sorted_insertionSort (· ≤ ·) _)
  have hans : answer s = answer t := by
    rw [answer_eq_sorted s hs, answer_eq_sorted t ht, hsort]
  exact ⟨hans, by rw [main, hans, main]⟩

/-- Witness for C19 at `"3+2+1"` and `"1+3+2"`. -/
theorem answer_canonical_witness :
    wellFormed "3+2+1".toList = true
    ∧ wellFormed "1+3+2".toList = true
    ∧ (digitsOf "3+2+1".toList).Perm (digitsOf "1+3+2".toList)
    ∧ (answer "3+2+1".toList = answer "1+3+2".toList
      ∧ main "3+2+1".toList = main "1+3+2".toList) :=
  ⟨by decide, by decide, by decide,
    answer_canonical "3+2+1".toList "1+3+2".toList (by decide) (by decide) (by decide)⟩

end HelpfulMaths

end Codeforces
